import Mathlib

/-!
Shallow embedding of the core of `analyze.py` (HPLRender): the binning engine
`binResultsBy`, the per-bin aggregation `minMaxAvgPerBin`, and the best-bin
selection `getBestBin`, together with theorems settling the specification
claims about them.

Modelling choices:
* A Python result record is an arbitrary type `α`; a binning function
  (`HPLResult` getter) is `α → κ` with decidable equality on `κ`, and a
  statistic function is `α → ℚ` (Python floats are modelled exactly by
  rationals).
* A Python `dict` is an association list `List (κ × List α)` that preserves
  insertion order, as Python dicts do.  A Python dict never has two equal
  keys; `binResultsBy` below produces key-`Nodup` lists by construction, and
  theorems about arbitrary "mappings" carry a `Nodup` hypothesis where key
  uniqueness matters.
* A Python call that raises (`min([])`, `statistics.mean([])`, `[][0]`) is
  modelled by `Option`: `none` is the raised exception.
* `list.sort(key=..., reverse=...)` is Python's stable sort (stable also with
  `reverse=True`).  A stable sort by a total preorder has a unique result,
  so it is modelled by `List.insertionSort` (Mathlib's stable sort) under the
  mean ordering, reversed via the order and not via post-hoc reversal, which
  is exactly how CPython implements `reverse=True`.  Sorting the key list by
  dict lookup of the mean (the Python code) coincides with sorting the
  `(key, stats)` entries by mean and projecting to keys, because dict keys
  are unique.
-/

set_option linter.unusedSectionVars false

namespace HPLRender

/-- Index constants from `analyze.py` for the stats triple.  In the Lean
model the triple is an anonymous product; `MMAMin`, `MMAMax`, `MMAAvg`
correspond to the first, second and third component. -/
def MMAMin : Nat := 0

/-- See `MMAMin`. -/
def MMAMax : Nat := 1

/-- See `MMAMin`. -/
def MMAAvg : Nat := 2

variable {α : Type} {κ : Type} [DecidableEq κ]

/-- One iteration of the loop body of `binResultsBy`:
`binnedResults[k].append(r)` on a `defaultdict(list)`.  If a bin keyed `k`
exists, `r` is appended to its record list in place; otherwise a fresh bin
`(k, [r])` is created at the end (Python dicts preserve insertion order). -/
def insertBin (k : κ) (r : α) : List (κ × List α) → List (κ × List α)
  | [] => [(k, [r])]
  | (k', rs) :: rest =>
      if k' = k then (k', rs ++ [r]) :: rest else (k', rs) :: insertBin k r rest

/-- `binResultsBy(results, binningFunction)` from `analyze.py`: place results
into bins depending on a binning function, iterating the results in input
order and appending each to the bin keyed by its binning-function output. -/
def binResultsBy (results : List α) (binningFunction : α → κ) : List (κ × List α) :=
  results.foldl (fun acc r => insertBin (binningFunction r) r acc) []

/-- The body of the loop of `minMaxAvgPerBin` for a single bin:
`(min(contents), max(contents), statistics.mean(contents))` after mapping
`statFunction` over the bin's records.  `min`/`max`/`statistics.mean` raise
on an empty sequence, modelled by `none`. -/
def binStats (statFunction : α → ℚ) (contents : List α) : Option (ℚ × ℚ × ℚ) :=
  match (contents.map statFunction).min?, (contents.map statFunction).max? with
  | some mn, some mx =>
      some (mn, mx, (contents.map statFunction).sum / ((contents.map statFunction).length : ℚ))
  | _, _ => none

/-- `minMaxAvgPerBin(binnedResults, statFunction)` from `analyze.py`: for each
bin, the minimum, maximum and average of the values of its records under
`statFunction`, keyed as in the input mapping.  Any empty bin makes the
whole call raise (`none`). -/
def minMaxAvgPerBin : List (κ × List α) → (α → ℚ) → Option (List (κ × (ℚ × ℚ × ℚ)))
  | [], _ => some []
  | (key, contents) :: rest, statFunction =>
      match binStats statFunction contents, minMaxAvgPerBin rest statFunction with
      | some s, some tail => some ((key, s) :: tail)
      | _, _ => none

/-- The sort order used by `getBestBin`:
`bins.sort(key = lambda x: minMaxAvg.get(x)[MMAAvg], reverse = not lowerIsBetter)`
compares stats entries by their average component, ascending when
`lowerIsBetter` and descending otherwise. -/
def meanOrder (lowerIsBetter : Bool) (s t : κ × ℚ × ℚ × ℚ) : Prop :=
  cond lowerIsBetter (s.2.2.2 ≤ t.2.2.2) (t.2.2.2 ≤ s.2.2.2)

instance meanOrderDecidable (b : Bool) : DecidableRel (@meanOrder κ b) := fun s t =>
  match b with
  | true => inferInstanceAs (Decidable (s.2.2.2 ≤ t.2.2.2))
  | false => inferInstanceAs (Decidable (t.2.2.2 ≤ s.2.2.2))

/-- `getBestBin(binnedResults, statFunction, lowerIsBetter)` from
`analyze.py`: compute `minMaxAvgPerBin`, stably sort the bin entries by
their average (ascending iff `lowerIsBetter`), and return the key of the
first entry.  The final `bins[0]` raises `IndexError` on an empty mapping,
modelled by `head?` being `none`; an exception in `minMaxAvgPerBin`
propagates. -/
def getBestBin (binnedResults : List (κ × List α)) (statFunction : α → ℚ)
    (lowerIsBetter : Bool) : Option κ :=
  match minMaxAvgPerBin binnedResults statFunction with
  | none => none
  | some minMaxAvg =>
      (((minMaxAvg.insertionSort (meanOrder lowerIsBetter))).map Prod.fst).head?

/-- The arithmetic mean of a bin's records under a statistic function —
the specification's notion of a bin's mean value, used to state the
best-bin claims. -/
def meanOfBin (statFunction : α → ℚ) (p : κ × List α) : ℚ :=
  (p.2.map statFunction).sum / ((p.2.map statFunction).length : ℚ)

/-! ### Structural lemmas about `insertBin` and the binning fold -/

lemma insertBin_map_fst (k : κ) (r : α) (acc : List (κ × List α)) :
    (insertBin k r acc).map Prod.fst =
      if k ∈ acc.map Prod.fst then acc.map Prod.fst else acc.map Prod.fst ++ [k] := by
  induction acc with
  | nil => simp [insertBin]
  | cons p rest ih =>
    obtain ⟨k', rs⟩ := p
    by_cases h : k' = k
    · subst h
      simp [insertBin]
    · have hne : k ≠ k' := fun he => h he.symm
      simp only [insertBin, if_neg h, List.map_cons, List.mem_cons]
      rw [ih]
      by_cases hk : k ∈ rest.map Prod.fst
      · rw [if_pos hk, if_pos (Or.inr hk)]
      · rw [if_neg hk, if_neg (by rintro (he | hm); exact hne he; exact hk hm)]
        simp only [List.cons_append]

lemma insertBin_nodup_fst {acc : List (κ × List α)} (h : (acc.map Prod.fst).Nodup)
    (k : κ) (r : α) : ((insertBin k r acc).map Prod.fst).Nodup := by
  rw [insertBin_map_fst]
  by_cases hk : k ∈ acc.map Prod.fst
  · simpa [hk] using h
  · simp [hk, List.nodup_append, h]

lemma binFold_nodup_fst (f : α → κ) :
    ∀ (rs : List α) (acc : List (κ × List α)), (acc.map Prod.fst).Nodup →
      ((rs.foldl (fun a r => insertBin (f r) r a) acc).map Prod.fst).Nodup
  | [], _, h => h
  | r :: rs, acc, h => by
    rw [List.foldl_cons]
    exact binFold_nodup_fst f rs _ (insertBin_nodup_fst h (f r) r)

lemma binResultsBy_nodup_fst (results : List α) (f : α → κ) :
    ((binResultsBy results f).map Prod.fst).Nodup :=
  binFold_nodup_fst f results [] (by simp)

lemma lookup_insertBin_self (k : κ) (r : α) (acc : List (κ × List α)) :
    (insertBin k r acc).lookup k = some (((acc.lookup k).getD []) ++ [r]) := by
  induction acc with
  | nil => simp [insertBin]
  | cons p rest ih =>
    obtain ⟨k', rs⟩ := p
    by_cases h : k' = k
    · subst h
      simp [insertBin]
    · have hbeq : (k == k') = false := beq_eq_false_iff_ne.mpr fun he => h he.symm
      simp only [insertBin, if_neg h, List.lookup_cons, hbeq, ih]

lemma lookup_insertBin_ne {k₁ k : κ} (h : k₁ ≠ k) (r : α) (acc : List (κ × List α)) :
    (insertBin k r acc).lookup k₁ = acc.lookup k₁ := by
  have hbeq : (k₁ == k) = false := beq_eq_false_iff_ne.mpr h
  induction acc with
  | nil => simp [insertBin, List.lookup_cons, hbeq]
  | cons p rest ih =>
    obtain ⟨k', rs⟩ := p
    by_cases hk : k' = k
    · subst hk
      have hins : insertBin k' r ((k', rs) :: rest) = (k', rs ++ [r]) :: rest := by
        simp [insertBin]
      simp only [hins, List.lookup_cons, hbeq]
    · by_cases hkk : k₁ = k'
      · subst hkk
        simp only [insertBin, if_neg hk, List.lookup_cons, beq_self_eq_true]
      · have hbeq2 : (k₁ == k') = false := beq_eq_false_iff_ne.mpr hkk
        simp only [insertBin, if_neg hk, List.lookup_cons, hbeq2, ih]

lemma binFold_lookup_getD (f : α → κ) (k : κ) :
    ∀ (rs : List α) (acc : List (κ × List α)),
      ((rs.foldl (fun a r => insertBin (f r) r a) acc).lookup k).getD [] =
        ((acc.lookup k).getD []) ++ rs.filter (fun r => decide (f r = k))
  | [], acc => by simp
  | r :: rs, acc => by
    rw [List.foldl_cons, List.filter_cons]
    by_cases h : f r = k
    · rw [binFold_lookup_getD f k rs _]
      rw [h, lookup_insertBin_self, if_pos (by simp [h])]
      simp
    · rw [binFold_lookup_getD f k rs _]
      rw [lookup_insertBin_ne (fun hk => h hk.symm), if_neg (by simp [h])]

lemma binFold_lookup_isSome (f : α → κ) (k : κ) :
    ∀ (rs : List α) (acc : List (κ × List α)),
      ((rs.foldl (fun a r => insertBin (f r) r a) acc).lookup k).isSome =
        (((acc.lookup k).isSome) || !(rs.filter (fun r => decide (f r = k))).isEmpty)
  | [], acc => by simp
  | r :: rs, acc => by
    rw [List.foldl_cons, List.filter_cons]
    by_cases h : f r = k
    · rw [binFold_lookup_isSome f k rs _]
      rw [h, lookup_insertBin_self, if_pos (by simp [h])]
      simp
    · rw [binFold_lookup_isSome f k rs _]
      rw [lookup_insertBin_ne (fun hk => h hk.symm), if_neg (by simp [h])]

lemma binResultsBy_lookup_none (results : List α) (f : α → κ) (k : κ)
    (hf : results.filter (fun r => decide (f r = k)) = []) :
    (binResultsBy results f).lookup k = none := by
  have h2 := binFold_lookup_isSome f k results []
  rw [hf] at h2
  simp only [List.lookup_nil, Option.isSome_none, List.isEmpty_nil, Bool.not_true,
    Bool.or_false] at h2
  exact Option.not_isSome_iff_eq_none.mp (by rw [binResultsBy]; simp [h2])

lemma binResultsBy_lookup_some (results : List α) (f : α → κ) (k : κ)
    (hf : results.filter (fun r => decide (f r = k)) ≠ []) :
    (binResultsBy results f).lookup k = some (results.filter (fun r => decide (f r = k))) := by
  have h1 := binFold_lookup_getD f k results []
  have h2 := binFold_lookup_isSome f k results []
  have hs : ((binResultsBy results f).lookup k).isSome = true := by
    rw [binResultsBy, h2]
    simp [List.isEmpty_iff, hf]
  obtain ⟨v, hv⟩ := Option.isSome_iff_exists.mp hs
  rw [binResultsBy] at hv
  rw [hv] at h1
  simp only [Option.getD_some, List.lookup_nil, Option.getD_none, List.nil_append] at h1
  rw [binResultsBy, hv, h1]

lemma mem_iff_lookup {l : List (κ × List α)} (hnd : (l.map Prod.fst).Nodup)
    {k : κ} {rs : List α} : (k, rs) ∈ l ↔ l.lookup k = some rs := by
  induction l with
  | nil => simp
  | cons p rest ih =>
    obtain ⟨k', rs'⟩ := p
    simp only [List.map_cons, List.nodup_cons] at hnd
    by_cases h : k = k'
    · subst h
      simp only [List.lookup_cons, beq_self_eq_true, List.mem_cons, Option.some.injEq]
      constructor
      · rintro (heq | hmem)
        · exact ((Prod.mk.injEq _ _ _ _).mp heq).2.symm
        · exact absurd (List.mem_map_of_mem Prod.fst hmem) hnd.1
      · intro hsome
        exact Or.inl (by rw [hsome])
    · have hbeq : (k == k') = false := beq_eq_false_iff_ne.mpr h
      simp only [List.lookup_cons, hbeq, List.mem_cons]
      rw [← ih hnd.2]
      simp [Prod.mk.injEq, h]

/-- The complete characterisation of the mapping built by `binResultsBy`:
its entries are exactly the pairs of a key and the (non-empty) sublist of
input records whose binning-function output equals that key. -/
lemma mem_binResultsBy (results : List α) (f : α → κ) (p : κ × List α) :
    p ∈ binResultsBy results f ↔
      p.2 = results.filter (fun r => decide (f r = p.1)) ∧ p.2 ≠ [] := by
  obtain ⟨k, rs⟩ := p
  dsimp only
  rw [mem_iff_lookup (binResultsBy_nodup_fst results f)]
  by_cases hf : results.filter (fun r => decide (f r = k)) = []
  · rw [binResultsBy_lookup_none results f k hf]
    simp [hf]
  · rw [binResultsBy_lookup_some results f k hf]
    constructor
    · intro h
      have h' := (Option.some.injEq _ _).mp h
      exact ⟨h'.symm, by rw [← h']; exact hf⟩
    · rintro ⟨h1, _⟩
      rw [h1]

lemma insertBin_flatten_perm (k : κ) (r : α) (acc : List (κ × List α)) :
    ((insertBin k r acc).map Prod.snd).flatten.Perm ((acc.map Prod.snd).flatten ++ [r]) := by
  induction acc with
  | nil => simp [insertBin]
  | cons p rest ih =>
    obtain ⟨k', rs⟩ := p
    by_cases h : k' = k
    · subst h
      have hins : insertBin k' r ((k', rs) :: rest) = (k', rs ++ [r]) :: rest := by
        simp [insertBin]
      rw [hins]
      simp only [List.map_cons, List.flatten_cons]
      rw [List.append_assoc, List.append_assoc]
      exact (@List.perm_append_comm _ [r] _).append_left rs
    · simp only [insertBin, if_neg h, List.map_cons, List.flatten_cons]
      refine (ih.append_left rs).trans ?_
      rw [← List.append_assoc]

lemma binFold_flatten_perm (f : α → κ) :
    ∀ (rs : List α) (acc : List (κ × List α)),
      ((rs.foldl (fun a r => insertBin (f r) r a) acc).map Prod.snd).flatten.Perm
        ((acc.map Prod.snd).flatten ++ rs)
  | [], acc => by simp
  | r :: rs, acc => by
    rw [List.foldl_cons]
    refine (binFold_flatten_perm f rs _).trans ?_
    refine ((insertBin_flatten_perm (f r) r acc).append_right rs).trans ?_
    rw [List.append_assoc]
    rfl

/-! ### Claims about `binResultsBy` -/

/-- **C1**: every input record appears in exactly one bin of
`binResultsBy results f`; every record of a bin has that bin's key as its
binning-function output; two records lie in the same bin iff their
binning-function outputs are equal; and the concatenation of all bin
contents is a permutation of the input multiset. -/
theorem binResultsBy_partition (results : List α) (f : α → κ) :
    (∀ r ∈ results, ∃! p : κ × List α, p ∈ binResultsBy results f ∧ r ∈ p.2) ∧
    (∀ p ∈ binResultsBy results f, ∀ r ∈ p.2, f r = p.1) ∧
    (∀ p ∈ binResultsBy results f, ∀ q ∈ binResultsBy results f,
      ∀ r ∈ p.2, ∀ s ∈ q.2, (f r = f s ↔ p = q)) ∧
    ((binResultsBy results f).map Prod.snd).flatten.Perm results := by
  have hkey : ∀ p ∈ binResultsBy results f, ∀ r ∈ p.2, f r = p.1 := by
    intro p hp r hr
    have h := ((mem_binResultsBy results f p).mp hp).1
    rw [h] at hr
    exact of_decide_eq_true (List.mem_filter.mp hr).2
  refine ⟨?_, hkey, ?_, ?_⟩
  · intro r hr
    have hrf : r ∈ results.filter (fun x => decide (f x = f r)) :=
      List.mem_filter.mpr ⟨hr, by simp⟩
    refine ⟨(f r, results.filter (fun x => decide (f x = f r))), ⟨?_, hrf⟩, ?_⟩
    · rw [mem_binResultsBy]
      refine ⟨rfl, fun hnil => ?_⟩
      have hnil2 : results.filter (fun x => decide (f x = f r)) = [] := hnil
      rw [hnil2] at hrf
      exact absurd hrf (List.not_mem_nil r)
    · rintro ⟨qk, qrs⟩ ⟨hq, hrq⟩
      have hk : f r = qk := hkey _ hq r hrq
      have h2 := ((mem_binResultsBy results f _).mp hq).1
      subst hk
      rw [Prod.mk.injEq]
      exact ⟨rfl, h2⟩
  · intro p hp q hq r hr s hs
    have h1 := hkey p hp r hr
    have h2 := hkey q hq s hs
    constructor
    · intro he
      have hpq : p.1 = q.1 := by rw [← h1, ← h2, he]
      have hp2 := ((mem_binResultsBy results f p).mp hp).1
      have hq2 := ((mem_binResultsBy results f q).mp hq).1
      have : p.2 = q.2 := by rw [hp2, hq2, hpq]
      exact Prod.ext hpq this
    · intro he
      rw [h1, h2, he]
  · have h := binFold_flatten_perm f results []
    simpa [binResultsBy] using h

/-- Witness for C1 on the specification's running scenario
`[(nb=4, t=10), (nb=4, t=20), (nb=8, t=5)]` binned by the first component:
the record `(4, 10)` lies in exactly one bin. -/
theorem binResultsBy_partition_witness :
    ∃! p : ℕ × List (ℕ × ℕ),
      p ∈ binResultsBy [((4:ℕ), (10:ℕ)), (4, 20), (8, 5)] Prod.fst ∧ (4, 10) ∈ p.2 :=
  (binResultsBy_partition [((4:ℕ), (10:ℕ)), (4, 20), (8, 5)] Prod.fst).1 (4, 10) (by decide)

/-- **C4**: within each bin of `binResultsBy results f` the records appear in
the same relative order as in the input list: each bin's contents are
exactly the input filtered to that bin's key, in particular a sublist of
the input. -/
theorem binResultsBy_stable (results : List α) (f : α → κ) :
    ∀ p ∈ binResultsBy results f,
      p.2 = results.filter (fun r => decide (f r = p.1)) ∧ p.2.Sublist results := by
  intro p hp
  have h := (mem_binResultsBy results f p).mp hp
  exact ⟨h.1, h.1 ▸ List.filter_sublist results⟩

/-- Witness for C4: in the scenario of `binResultsBy_partition_witness` the
bin keyed `4` holds `(4,10)` then `(4,20)`, in input order. -/
theorem binResultsBy_stable_witness :
    ([((4:ℕ), (10:ℕ)), (4, 20)] : List (ℕ × ℕ)) =
        List.filter (fun r => decide (Prod.fst r = 4)) [((4:ℕ), (10:ℕ)), (4, 20), (8, 5)] ∧
      List.Sublist [((4:ℕ), (10:ℕ)), (4, 20)] [((4:ℕ), (10:ℕ)), (4, 20), (8, 5)] :=
  binResultsBy_stable [((4:ℕ), (10:ℕ)), (4, 20), (8, 5)] Prod.fst
    (4, [(4, 10), (4, 20)]) (by decide)

/-- **C7**: binning an empty record list yields the empty mapping, for every
binning function. -/
theorem binResultsBy_nil (f : α → κ) : binResultsBy ([] : List α) f = [] := rfl

/-- **C8**: every bin produced by `binResultsBy` is non-empty — bins are only
created when their first record is inserted. -/
theorem binResultsBy_bins_nonempty (results : List α) (f : α → κ) :
    ∀ p ∈ binResultsBy results f, p.2 ≠ [] :=
  fun p hp => ((mem_binResultsBy results f p).mp hp).2

/-- Witness for C8: the bin keyed `8` in the running scenario is non-empty. -/
theorem binResultsBy_bins_nonempty_witness :
    ([((8:ℕ), (5:ℕ))] : List (ℕ × ℕ)) ≠ [] :=
  binResultsBy_bins_nonempty [((4:ℕ), (10:ℕ)), (4, 20), (8, 5)] Prod.fst
    (8, [(8, 5)]) (by decide)

/-! ### Lemmas about `binStats` and `minMaxAvgPerBin` -/

lemma binStats_of_ne_nil (g : α → ℚ) (contents : List α) (h : contents ≠ []) :
    ∃ mn mx, (contents.map g).min? = some mn ∧ (contents.map g).max? = some mx ∧
      binStats g contents =
        some (mn, mx, (contents.map g).sum / ((contents.map g).length : ℚ)) := by
  have hne : contents.map g ≠ [] := by simpa using h
  have h1 : (contents.map g).min? ≠ none := fun hn => hne (List.min?_eq_none_iff.mp hn)
  have h2 : (contents.map g).max? ≠ none := fun hn => hne (List.max?_eq_none_iff.mp hn)
  obtain ⟨mn, hmn⟩ := Option.ne_none_iff_exists'.mp h1
  obtain ⟨mx, hmx⟩ := Option.ne_none_iff_exists'.mp h2
  exact ⟨mn, mx, hmn, hmx, by simp [binStats, hmn, hmx]⟩

lemma min?_spec {l : List ℚ} {mn : ℚ} (h : l.min? = some mn) :
    mn ∈ l ∧ ∀ v ∈ l, mn ≤ v := by
  haveI : Std.Antisymm ((· : ℚ) ≤ ·) := ⟨fun h₁ h₂ => le_antisymm h₁ h₂⟩
  rw [List.min?_eq_some_iff (fun a => le_refl a) (fun a b => min_choice a b)
    (fun _ _ _ => le_min_iff)] at h
  exact h

lemma max?_spec {l : List ℚ} {mx : ℚ} (h : l.max? = some mx) :
    mx ∈ l ∧ ∀ v ∈ l, v ≤ mx := by
  haveI : Std.Antisymm ((· : ℚ) ≤ ·) := ⟨fun h₁ h₂ => le_antisymm h₁ h₂⟩
  rw [List.max?_eq_some_iff (fun a => le_refl a) (fun a b => max_choice a b)
    (fun _ _ _ => max_le_iff)] at h
  exact h

lemma mean_bounds {l : List ℚ} {mn mx : ℚ} (hne : l ≠ [])
    (hmn : ∀ v ∈ l, mn ≤ v) (hmx : ∀ v ∈ l, v ≤ mx) :
    mn ≤ l.sum / (l.length : ℚ) ∧ l.sum / (l.length : ℚ) ≤ mx := by
  have hpos : (0 : ℚ) < (l.length : ℚ) := by
    exact_mod_cast List.length_pos.mpr hne
  constructor
  · rw [le_div_iff₀ hpos]
    have h := List.card_nsmul_le_sum l mn hmn
    rwa [nsmul_eq_mul, mul_comm] at h
  · rw [div_le_iff₀ hpos]
    have h := List.sum_le_card_nsmul l mx hmx
    rwa [nsmul_eq_mul, mul_comm] at h

/-! ### Claims about `minMaxAvgPerBin` -/

omit [DecidableEq κ] in
/-- **C3**: on a mapping of non-empty bins, `minMaxAvgPerBin` succeeds and
maps each bin (keyed as in the input) to the triple of the minimum, the
maximum, and the arithmetic mean (sum divided by count) of the statistic
function over the bin's records, and each triple satisfies
`min ≤ mean ≤ max`. -/
theorem minMaxAvgPerBin_correct (binned : List (κ × List α)) (g : α → ℚ)
    (hb : ∀ p ∈ binned, p.2 ≠ []) :
    ∃ stats : List (κ × (ℚ × ℚ × ℚ)),
      minMaxAvgPerBin binned g = some stats ∧
      List.Forall₂ (fun (p : κ × List α) (s : κ × (ℚ × ℚ × ℚ)) =>
        s.1 = p.1 ∧
        s.2.1 ∈ p.2.map g ∧ (∀ v ∈ p.2.map g, s.2.1 ≤ v) ∧
        s.2.2.1 ∈ p.2.map g ∧ (∀ v ∈ p.2.map g, v ≤ s.2.2.1) ∧
        s.2.2.2 = (p.2.map g).sum / ((p.2.map g).length : ℚ) ∧
        s.2.1 ≤ s.2.2.2 ∧ s.2.2.2 ≤ s.2.2.1) binned stats := by
  induction binned with
  | nil => exact ⟨[], rfl, List.Forall₂.nil⟩
  | cons p rest ih =>
    obtain ⟨key, contents⟩ := p
    have hc : contents ≠ [] := hb (key, contents) (List.mem_cons_self _ _)
    obtain ⟨mn, mx, hmn, hmx, hbs⟩ := binStats_of_ne_nil g contents hc
    obtain ⟨tail, htail, hf2⟩ := ih fun q hq => hb q (List.mem_cons_of_mem _ hq)
    refine ⟨(key, mn, mx, (contents.map g).sum / ((contents.map g).length : ℚ)) :: tail,
      ?_, ?_⟩
    · simp only [minMaxAvgPerBin, hbs, htail]
    · refine List.Forall₂.cons ?_ hf2
      have hmn' := min?_spec hmn
      have hmx' := max?_spec hmx
      have hmean := mean_bounds (by simpa using hc) hmn'.2 hmx'.2
      exact ⟨rfl, hmn'.1, hmn'.2, hmx'.1, hmx'.2, rfl, hmean.1, hmean.2⟩

/-- Witness for C3 on the specification's scenario binned by the first
component: aggregation by the second component succeeds with the stated
per-bin properties. -/
theorem minMaxAvgPerBin_correct_witness :
    ∃ stats : List (ℕ × (ℚ × ℚ × ℚ)),
      minMaxAvgPerBin [((4:ℕ), [((4:ℕ), (10:ℚ)), (4, 20)]), (8, [(8, 5)])] Prod.snd =
          some stats ∧
      List.Forall₂ (fun (p : ℕ × List (ℕ × ℚ)) (s : ℕ × (ℚ × ℚ × ℚ)) =>
        s.1 = p.1 ∧
        s.2.1 ∈ p.2.map Prod.snd ∧ (∀ v ∈ p.2.map Prod.snd, s.2.1 ≤ v) ∧
        s.2.2.1 ∈ p.2.map Prod.snd ∧ (∀ v ∈ p.2.map Prod.snd, v ≤ s.2.2.1) ∧
        s.2.2.2 = (p.2.map Prod.snd).sum / ((p.2.map Prod.snd).length : ℚ) ∧
        s.2.1 ≤ s.2.2.2 ∧ s.2.2.2 ≤ s.2.2.1)
        [((4:ℕ), [((4:ℕ), (10:ℚ)), (4, 20)]), (8, [(8, 5)])] stats :=
  minMaxAvgPerBin_correct [((4:ℕ), [((4:ℕ), (10:ℚ)), (4, 20)]), (8, [(8, 5)])] Prod.snd
    (by decide)

omit [DecidableEq κ] in
/-- **C6**: if any bin of the mapping is empty, `minMaxAvgPerBin` fails
(raises) instead of producing a default or zero triple for it. -/
theorem minMaxAvgPerBin_empty_bin (binned : List (κ × List α)) (g : α → ℚ)
    (h : ∃ p ∈ binned, p.2 = []) :
    minMaxAvgPerBin binned g = none := by
  induction binned with
  | nil =>
    obtain ⟨p, hp, _⟩ := h
    exact absurd hp (List.not_mem_nil p)
  | cons q rest ih =>
    obtain ⟨key, contents⟩ := q
    obtain ⟨p, hp, hpe⟩ := h
    rcases List.mem_cons.mp hp with heq | hmem
    · have hce : contents = [] := by rw [heq] at hpe; exact hpe
      subst hce
      simp [minMaxAvgPerBin, show binStats g ([] : List α) = none from rfl]
    · cases hbs : binStats g contents <;>
        simp [minMaxAvgPerBin, hbs, ih ⟨p, hmem, hpe⟩]

/-- Witness for C6: a hand-built mapping with an empty bin makes
`minMaxAvgPerBin` fail. -/
theorem minMaxAvgPerBin_empty_bin_witness :
    minMaxAvgPerBin [((4:ℕ), ([] : List (ℕ × ℚ)))] Prod.snd = none :=
  minMaxAvgPerBin_empty_bin [((4:ℕ), ([] : List (ℕ × ℚ)))] Prod.snd
    ⟨(4, []), by decide, rfl⟩

/-! ### The head of a stable sort: machinery for `getBestBin` -/

/-- The earliest entry of a list that compares at-least-as-good (under `r`)
as every other entry: the element a stable sort by `r` places first. -/
def firstBest {β : Type} (r : β → β → Bool) : List β → Option β
  | [] => none
  | x :: xs =>
      match firstBest r xs with
      | none => some x
      | some y => if r x y then some x else some y

lemma firstBest_eq_none {β : Type} (r : β → β → Bool) :
    ∀ l : List β, firstBest r l = none ↔ l = []
  | [] => by simp [firstBest]
  | x :: xs => by
    unfold firstBest
    cases firstBest r xs with
    | none => simp
    | some y => by_cases h : r x y <;> simp [h]

lemma head?_insertionSort {β : Type} (r : β → β → Prop) [DecidableRel r] (l : List β) :
    (List.insertionSort r l).head? = firstBest (fun a b => decide (r a b)) l := by
  induction l with
  | nil => rfl
  | cons x xs ih =>
    show (List.orderedInsert r x (List.insertionSort r xs)).head? = _
    cases h : List.insertionSort r xs with
    | nil =>
      have hx : xs = [] := by
        have hp := List.perm_insertionSort r xs
        rw [h] at hp
        exact hp.symm.eq_nil
      subst hx
      rfl
    | cons y t =>
      rw [h] at ih
      rw [List.orderedInsert]
      unfold firstBest
      rw [← ih]
      by_cases hr : r x y
      · simp [hr]
      · simp [hr]

lemma firstBest_map {β γ : Type} (r : γ → γ → Bool) (h : β → γ) (l : List β) :
    firstBest r (l.map h) = (firstBest (fun a b => r (h a) (h b)) l).map h := by
  induction l with
  | nil => rfl
  | cons x xs ih =>
    simp only [List.map_cons]
    unfold firstBest
    rw [ih]
    cases hfb : firstBest (fun a b => r (h a) (h b)) xs with
    | none => rfl
    | some y =>
      by_cases hr : r (h x) (h y)
      · simp [hr]
      · simp [hr]

lemma firstBest_spec {β : Type} (r : β → β → Bool) (hrefl : ∀ a, r a a = true)
    (htrans : ∀ a b c, r a b = true → r b c = true → r a c = true)
    (htotal : ∀ a b, r a b = true ∨ r b a = true) (l : List β) (hl : l ≠ []) :
    ∃ i, ∃ hi : i < l.length, firstBest r l = some (l.get ⟨i, hi⟩) ∧
      (∀ x ∈ l, r (l.get ⟨i, hi⟩) x = true) ∧
      ∀ j, ∀ hj : j < l.length, j < i → ¬ (∀ x ∈ l, r (l.get ⟨j, hj⟩) x = true) := by
  induction l with
  | nil => exact absurd rfl hl
  | cons x xs ih =>
    cases hfb : firstBest r xs with
    | none =>
      have hnil : xs = [] := (firstBest_eq_none r xs).mp hfb
      subst hnil
      refine ⟨0, by simp, by simp [firstBest], ?_, ?_⟩
      · intro z hz
        have hz' : z = x := List.mem_singleton.mp hz
        subst hz'
        exact hrefl z
      · intro j hj hji
        omega
    | some y =>
      have hxsne : xs ≠ [] := by
        intro hn
        rw [hn] at hfb
        simp [firstBest] at hfb
      obtain ⟨i, hi, hfb2, hopt, hfirst⟩ := ih hxsne
      rw [hfb] at hfb2
      have hy : y = xs.get ⟨i, hi⟩ := by
        injection hfb2
      by_cases hr : r x y = true
      · refine ⟨0, by simp, ?_, ?_, ?_⟩
        · show firstBest r (x :: xs) = some x
          simp [firstBest, hfb, hr]
        · intro z hz
          rcases List.mem_cons.mp hz with hz' | hz'
          · rw [hz']
            exact hrefl x
          · exact htrans _ _ _ (hy ▸ hr) (hopt z hz')
        · intro j hj hji
          omega
      · have hyx : r y x = true := (htotal x y).resolve_left hr
        have hilen : i + 1 < (x :: xs).length := by
          simpa using Nat.succ_lt_succ hi
        have hget : (x :: xs).get ⟨i + 1, hilen⟩ = xs.get ⟨i, hi⟩ := rfl
        refine ⟨i + 1, hilen, ?_, ?_, ?_⟩
        · rw [hget]
          show firstBest r (x :: xs) = some (xs.get ⟨i, hi⟩)
          unfold firstBest
          rw [hfb]
          show (if r x y = true then some x else some y) = some (xs.get ⟨i, hi⟩)
          rw [if_neg hr, hy]
        · intro z hz
          rw [hget]
          rcases List.mem_cons.mp hz with hz' | hz'
          · rw [hz', ← hy]
            exact hyx
          · exact hopt z hz'
        · intro j hj hji
          cases j with
          | zero =>
            intro hall
            have hyin : y ∈ x :: xs :=
              List.mem_cons_of_mem _ (hy ▸ List.get_mem xs i hi)
            exact hr (hall y hyin)
          | succ j' =>
            intro hall
            have hj' : j' < xs.length := by
              simpa using hj
            refine hfirst j' hj' (by omega) ?_
            intro z hz
            exact hall z (List.mem_cons_of_mem _ hz)

/-- The stats entry `minMaxAvgPerBin` produces for one non-empty bin; the
`getD` defaults are never used on non-empty bins. -/
def statsEntry (g : α → ℚ) (p : κ × List α) : κ × ℚ × ℚ × ℚ :=
  (p.1, ((p.2.map g).min?).getD 0, ((p.2.map g).max?).getD 0, meanOfBin g p)

omit [DecidableEq κ] in
lemma minMaxAvgPerBin_eq_map (binned : List (κ × List α)) (g : α → ℚ)
    (hb : ∀ p ∈ binned, p.2 ≠ []) :
    minMaxAvgPerBin binned g = some (binned.map (statsEntry g)) := by
  induction binned with
  | nil => rfl
  | cons p rest ih =>
    obtain ⟨key, contents⟩ := p
    have hc : contents ≠ [] := hb (key, contents) (List.mem_cons_self _ _)
    obtain ⟨mn, mx, hmn, hmx, hbs⟩ := binStats_of_ne_nil g contents hc
    rw [List.map_cons]
    simp only [minMaxAvgPerBin, hbs, ih fun q hq => hb q (List.mem_cons_of_mem _ hq)]
    simp [statsEntry, meanOfBin, hmn, hmx]

/-- The comparator on bins induced by `getBestBin`'s sort: bins compare by
their mean statistic, ascending when `lowerIsBetter` and descending
otherwise. -/
def meanPref (g : α → ℚ) (b : Bool) (p q : κ × List α) : Bool :=
  decide (meanOrder b (statsEntry g p) (statsEntry g q))

omit [DecidableEq κ] in
lemma meanPref_true_iff (g : α → ℚ) (b : Bool) (p q : κ × List α) :
    meanPref g b p q = true ↔
      cond b (meanOfBin g p ≤ meanOfBin g q) (meanOfBin g q ≤ meanOfBin g p) := by
  cases b <;> simp [meanPref, meanOrder, statsEntry]

omit [DecidableEq κ] in
lemma meanPref_refl (g : α → ℚ) (b : Bool) (p : κ × List α) : meanPref g b p p = true := by
  rw [meanPref_true_iff]
  cases b <;> simp

omit [DecidableEq κ] in
lemma meanPref_trans (g : α → ℚ) (b : Bool) (p q s : κ × List α)
    (h1 : meanPref g b p q = true) (h2 : meanPref g b q s = true) :
    meanPref g b p s = true := by
  rw [meanPref_true_iff] at h1 h2 ⊢
  cases b
  · exact le_trans h2 h1
  · exact le_trans h1 h2

omit [DecidableEq κ] in
lemma meanPref_total (g : α → ℚ) (b : Bool) (p q : κ × List α) :
    meanPref g b p q = true ∨ meanPref g b q p = true := by
  rw [meanPref_true_iff, meanPref_true_iff]
  cases b
  · exact le_total _ _
  · exact le_total _ _

omit [DecidableEq κ] in
/-- On a mapping of non-empty bins, `getBestBin` returns the key of the
entry a stable sort under `meanPref` places first. -/
lemma getBestBin_eq_firstBest (binned : List (κ × List α)) (g : α → ℚ) (b : Bool)
    (hb : ∀ p ∈ binned, p.2 ≠ []) :
    getBestBin binned g b = (firstBest (meanPref g b) binned).map Prod.fst := by
  unfold getBestBin
  rw [minMaxAvgPerBin_eq_map binned g hb]
  show ((List.insertionSort (meanOrder b) (binned.map (statsEntry g))).map Prod.fst).head? = _
  rw [List.head?_map, head?_insertionSort, firstBest_map, Option.map_map]
  rfl

/-! ### Claims about `getBestBin` -/

/-- **C5**: `getBestBin` on an empty mapping fails (returns no value at all,
rather than a sentinel), for every statistic function and direction flag;
on any non-empty mapping of non-empty bins it succeeds, so the failure is
the distinct empty-input error. -/
theorem getBestBin_empty_input (g : α → ℚ) (b : Bool) :
    getBestBin ([] : List (κ × List α)) g b = none ∧
    ∀ binned : List (κ × List α), binned ≠ [] → (∀ p ∈ binned, p.2 ≠ []) →
      (getBestBin binned g b).isSome = true := by
  refine ⟨rfl, ?_⟩
  intro binned hne hb
  rw [getBestBin_eq_firstBest binned g b hb]
  cases hfb : firstBest (meanPref g b) binned with
  | none => exact absurd ((firstBest_eq_none _ _).mp hfb) hne
  | some y => rfl

/-- Witness for C5: selection over no bins fails, over one bin succeeds. -/
theorem getBestBin_empty_input_witness :
    getBestBin ([] : List (ℕ × List (ℕ × ℚ))) Prod.snd true = none ∧
    (getBestBin [((4:ℕ), [((4:ℕ), (10:ℚ))])] Prod.snd true).isSome = true :=
  ⟨(getBestBin_empty_input Prod.snd true).1,
    (getBestBin_empty_input Prod.snd true).2 [((4:ℕ), [((4:ℕ), (10:ℚ))])]
      (by decide) (by decide)⟩

/-- **C2**: on a non-empty mapping of non-empty bins with pairwise-distinct
means, `getBestBin` with `lowerIsBetter = true` returns the key of the bin
with the smallest mean, and with `lowerIsBetter = false` the key of the bin
with the largest mean. -/
theorem getBestBin_direction (binned : List (κ × List α)) (g : α → ℚ)
    (hb : ∀ p ∈ binned, p.2 ≠ []) (_hnd : (binned.map Prod.fst).Nodup)
    (hdist : binned.Pairwise fun p q => meanOfBin g p ≠ meanOfBin g q) :
    (∀ p ∈ binned, (∀ q ∈ binned, meanOfBin g p ≤ meanOfBin g q) →
      getBestBin binned g true = some p.1) ∧
    (∀ p ∈ binned, (∀ q ∈ binned, meanOfBin g q ≤ meanOfBin g p) →
      getBestBin binned g false = some p.1) := by
  have key : ∀ (b : Bool), ∀ p ∈ binned,
      (∀ q ∈ binned, cond b (meanOfBin g p ≤ meanOfBin g q)
        (meanOfBin g q ≤ meanOfBin g p)) →
      getBestBin binned g b = some p.1 := by
    intro b p hp hopt
    have hne : binned ≠ [] := by
      rintro rfl
      exact absurd hp (List.not_mem_nil p)
    rw [getBestBin_eq_firstBest binned g b hb]
    obtain ⟨i, hi, hfb, hiopt, _⟩ :=
      firstBest_spec (meanPref g b) (meanPref_refl g b) (meanPref_trans g b)
        (meanPref_total g b) binned hne
    rw [hfb]
    have ha := (meanPref_true_iff g b _ p).mp (hiopt p hp)
    have hb2 := hopt (binned.get ⟨i, hi⟩) (List.get_mem binned i hi)
    have h1 : meanOfBin g (binned.get ⟨i, hi⟩) = meanOfBin g p := by
      cases b
      · exact le_antisymm hb2 ha
      · exact le_antisymm ha hb2
    have hsymm : Symmetric fun p q : κ × List α => meanOfBin g p ≠ meanOfBin g q := by
      intro x y hxy heq
      exact hxy heq.symm
    have heq : binned.get ⟨i, hi⟩ = p := by
      by_contra hne2
      exact List.Pairwise.forall hsymm hdist (List.get_mem binned i hi) hp hne2 h1
    rw [heq]
    rfl
  exact ⟨fun p hp h => key true p hp h, fun p hp h => key false p hp h⟩

/-- Witness for C2 on the specification's single-record scenario
(`gflops = 100`): one bin keyed `7`; both directions select it. -/
theorem getBestBin_direction_witness :
    getBestBin [((7:ℕ), [((7:ℕ), (100:ℚ))])] Prod.snd true = some 7 ∧
    getBestBin [((7:ℕ), [((7:ℕ), (100:ℚ))])] Prod.snd false = some 7 :=
  ⟨(getBestBin_direction [((7:ℕ), [((7:ℕ), (100:ℚ))])] Prod.snd (by decide) (by decide)
      (by simp)).1 (7, [(7, 100)]) (by decide)
      (fun q hq => le_of_eq
        (congrArg (meanOfBin Prod.snd) (List.mem_singleton.mp hq)).symm),
    (getBestBin_direction [((7:ℕ), [((7:ℕ), (100:ℚ))])] Prod.snd (by decide) (by decide)
      (by simp)).2 (7, [(7, 100)]) (by decide)
      (fun q hq => le_of_eq
        (congrArg (meanOfBin Prod.snd) (List.mem_singleton.mp hq)))⟩

/-- **C10**: `getBestBin` returns the key of the earliest bin (in the
mapping's iteration order) whose mean is optimal in the requested
direction; in particular, among tied optimal bins the first-inserted one
wins, deterministically. -/
theorem getBestBin_tiebreak_first (binned : List (κ × List α)) (g : α → ℚ) (b : Bool)
    (hne : binned ≠ []) (hb : ∀ p ∈ binned, p.2 ≠ [])
    (_hnd : (binned.map Prod.fst).Nodup) :
    ∃ i, ∃ hi : i < binned.length,
      getBestBin binned g b = some (binned.get ⟨i, hi⟩).1 ∧
      (∀ q ∈ binned, cond b (meanOfBin g (binned.get ⟨i, hi⟩) ≤ meanOfBin g q)
        (meanOfBin g q ≤ meanOfBin g (binned.get ⟨i, hi⟩))) ∧
      ∀ j, ∀ hj : j < binned.length, j < i →
        ¬ ∀ q ∈ binned, cond b (meanOfBin g (binned.get ⟨j, hj⟩) ≤ meanOfBin g q)
          (meanOfBin g q ≤ meanOfBin g (binned.get ⟨j, hj⟩)) := by
  obtain ⟨i, hi, hfb, hiopt, hfirst⟩ :=
    firstBest_spec (meanPref g b) (meanPref_refl g b) (meanPref_trans g b)
      (meanPref_total g b) binned hne
  refine ⟨i, hi, ?_, ?_, ?_⟩
  · rw [getBestBin_eq_firstBest binned g b hb, hfb]
    rfl
  · intro q hq
    exact (meanPref_true_iff g b _ q).mp (hiopt q hq)
  · intro j hj hji hall
    refine hfirst j hj hji ?_
    intro q hq
    exact (meanPref_true_iff g b _ q).mpr (hall q hq)

/-- Witness for C10 on a two-bin mapping with tied means. -/
theorem getBestBin_tiebreak_first_witness :
    ∃ i, ∃ hi : i < ([((4:ℕ), [((4:ℕ), (10:ℚ))]), (8, [(8, 10)])]).length,
      getBestBin [((4:ℕ), [((4:ℕ), (10:ℚ))]), (8, [(8, 10)])] Prod.snd true
          = some (([((4:ℕ), [((4:ℕ), (10:ℚ))]), (8, [(8, 10)])]).get ⟨i, hi⟩).1 ∧
      (∀ q ∈ [((4:ℕ), [((4:ℕ), (10:ℚ))]), (8, [(8, 10)])],
        cond true
          (meanOfBin Prod.snd
              (([((4:ℕ), [((4:ℕ), (10:ℚ))]), (8, [(8, 10)])]).get ⟨i, hi⟩)
            ≤ meanOfBin Prod.snd q)
          (meanOfBin Prod.snd q
            ≤ meanOfBin Prod.snd
                (([((4:ℕ), [((4:ℕ), (10:ℚ))]), (8, [(8, 10)])]).get ⟨i, hi⟩))) ∧
      ∀ j, ∀ hj : j < ([((4:ℕ), [((4:ℕ), (10:ℚ))]), (8, [(8, 10)])]).length, j < i →
        ¬ ∀ q ∈ [((4:ℕ), [((4:ℕ), (10:ℚ))]), (8, [(8, 10)])],
          cond true
            (meanOfBin Prod.snd
                (([((4:ℕ), [((4:ℕ), (10:ℚ))]), (8, [(8, 10)])]).get ⟨j, hj⟩)
              ≤ meanOfBin Prod.snd q)
            (meanOfBin Prod.snd q
              ≤ meanOfBin Prod.snd
                  (([((4:ℕ), [((4:ℕ), (10:ℚ))]), (8, [(8, 10)])]).get ⟨j, hj⟩)) :=
  getBestBin_tiebreak_first [((4:ℕ), [((4:ℕ), (10:ℚ))]), (8, [(8, 10)])] Prod.snd true
    (by decide) (by decide) (by decide)

/-- **C9**: the three core operations are deterministic — rerunning the
pipeline bin → aggregate → select-best on equal inputs yields identical
outputs. -/
theorem pipeline_deterministic (results₁ results₂ : List α) (f₁ f₂ : α → κ)
    (g₁ g₂ : α → ℚ) (b₁ b₂ : Bool) (hres : results₁ = results₂) (hf : f₁ = f₂)
    (hg : g₁ = g₂) (hlow : b₁ = b₂) :
    binResultsBy results₁ f₁ = binResultsBy results₂ f₂ ∧
    minMaxAvgPerBin (binResultsBy results₁ f₁) g₁
      = minMaxAvgPerBin (binResultsBy results₂ f₂) g₂ ∧
    getBestBin (binResultsBy results₁ f₁) g₁ b₁
      = getBestBin (binResultsBy results₂ f₂) g₂ b₂ := by
  subst hres
  subst hf
  subst hg
  subst hlow
  exact ⟨rfl, rfl, rfl⟩

/-- Witness for C9 on the specification's scenario input. -/
theorem pipeline_deterministic_witness :
    binResultsBy [((4:ℕ), (10:ℚ)), (4, 20), (8, 5)] Prod.fst
        = binResultsBy [((4:ℕ), (10:ℚ)), (4, 20), (8, 5)] Prod.fst ∧
    minMaxAvgPerBin (binResultsBy [((4:ℕ), (10:ℚ)), (4, 20), (8, 5)] Prod.fst) Prod.snd
        = minMaxAvgPerBin (binResultsBy [((4:ℕ), (10:ℚ)), (4, 20), (8, 5)] Prod.fst)
            Prod.snd ∧
    getBestBin (binResultsBy [((4:ℕ), (10:ℚ)), (4, 20), (8, 5)] Prod.fst) Prod.snd true
        = getBestBin (binResultsBy [((4:ℕ), (10:ℚ)), (4, 20), (8, 5)] Prod.fst) Prod.snd
            true :=
  pipeline_deterministic [((4:ℕ), (10:ℚ)), (4, 20), (8, 5)]
    [((4:ℕ), (10:ℚ)), (4, 20), (8, 5)] Prod.fst Prod.fst Prod.snd Prod.snd true true
    rfl rfl rfl rfl

end HPLRender
